import Mathlib

/-!
Shallow embedding of `src/turtlebot_proj3_pkg/src/Estimator.py`.

The module defines an `Estimator` base class holding four append-only sample
buffers (`u`, `x`, `y`, `x_hat`) fed by ROS subscription callbacks, and four
variants (`OracleObserver`, `DeadReckoning`, `KalmanFilter`,
`ExtendedKalmanFilter`) each overriding the periodic `update` method.  We
embed the numeric code over exact reals (`ℝ`), Python lists as `List`, numpy
vectors as `Fin n → ℝ` and numpy matrices as `Matrix (Fin m) (Fin n) ℝ`.
A Python statement that raises (`IndexError` on an empty-list index,
`LinAlgError`) is modelled by an `Option`-valued step returning `none`; a run
aborts at the first error.  `scipy.linalg.pinv` (Moore-Penrose pseudo-inverse,
not available in Mathlib) is an abstract parameter `pinv` of the semantics:
every theorem about the EKF quantifies over it.
-/

namespace TurtlebotEst

open Real Matrix

noncomputable section

/-- Half track width, `self.d = 0.08` (`Estimator.__init__`). -/
def d : ℝ := 0.08

/-- Wheel radius, `self.r = 0.033` (`Estimator.__init__`). -/
def r : ℝ := 0.033

/-- Update period, `self.dt = 0.1` (`Estimator.__init__`). -/
def dt : ℝ := 0.1

/-- Frozen nominal bearing, `self.phid = np.pi / 4` (`KalmanFilter.__init__`). -/
def phid : ℝ := Real.pi / 4

/-- Landmark coordinates, `self.landmark = (0.5, 0.5)` (`ExtendedKalmanFilter.__init__`). -/
def landmark : ℝ × ℝ := (0.5, 0.5)

/-- A ground-truth / estimate sample `[t, phi, x, y, thetaL, thetaR]`. -/
abbrev S6 := Fin 6 → ℝ

/-- An input / measurement sample `[t, a, b]`. -/
abbrev S3 := Fin 3 → ℝ

abbrev V5 := Fin 5 → ℝ
abbrev V4 := Fin 4 → ℝ
abbrev V2 := Fin 2 → ℝ
abbrev M44 := Matrix (Fin 4) (Fin 4) ℝ
abbrev M55 := Matrix (Fin 5) (Fin 5) ℝ
abbrev M22 := Matrix (Fin 2) (Fin 2) ℝ

/-- Process-model step `g(x, u)` shared verbatim by `DeadReckoning.g` and
`ExtendedKalmanFilter.g`: `x + (M(x) @ u) * dt` with the 5×2 coefficient
matrix from the source. -/
def g (x : V5) (u : V2) : V5 :=
  x + dt • (Matrix.mulVec
    !![-r / (2 * d), r / (2 * d);
       r / 2 * Real.cos (x 0), r / 2 * Real.cos (x 0);
       r / 2 * Real.sin (x 0), r / 2 * Real.sin (x 0);
       1, 0;
       0, 1] u)

/-- Source method `ExtendedKalmanFilter.dist_to_landmark`. -/
def dist_to_landmark (x : V5) : ℝ :=
  Real.sqrt ((landmark.1 - x 1) ^ 2 + (landmark.2 - x 2) ^ 2)

/-- Numpy's `np.arctan2 y x`: four-quadrant arctangent (signed zeros of IEEE floats
are identified with `0` in `ℝ`). -/
def arctan2 (y x : ℝ) : ℝ :=
  if 0 < x then Real.arctan (y / x)
  else if x < 0 then
    (if 0 ≤ y then Real.arctan (y / x) + Real.pi else Real.arctan (y / x) - Real.pi)
  else
    (if 0 < y then Real.pi / 2 else if y < 0 then -(Real.pi / 2) else 0)

/-- Measurement model `ExtendedKalmanFilter.h`. -/
def h (x : V5) : V2 :=
  ![dist_to_landmark x,
    x 0 - arctan2 (landmark.1 - x 1) (landmark.2 - x 2)]

/-- Source method `ExtendedKalmanFilter.approx_A`: `np.eye(5)` plus the bearing-derivative
terms. -/
def approx_A (x : V5) (u : V2) : M55 :=
  1 + !![0, 0, 0, 0, 0;
         -Real.sin (x 0) * r / 2 * (u 0 + u 1) * dt, 0, 0, 0, 0;
         Real.cos (x 0) * r / 2 * (u 0 + u 1) * dt, 0, 0, 0, 0;
         0, 0, 0, 0, 0;
         0, 0, 0, 0, 0]

/-- Source method `ExtendedKalmanFilter.approx_C` (transliterated; the divisions are the
source's, with `ℝ`'s total `x / 0 = 0` standing in for IEEE `inf`/`nan`). -/
def approx_C (x : V5) : Matrix (Fin 2) (Fin 5) ℝ :=
  let l_y_diff := landmark.2 - x 2
  let l_x_diff := landmark.1 - x 1
  !![0, (x 1 - landmark.1) / dist_to_landmark x,
        (x 2 - landmark.2) / dist_to_landmark x, 0, 0;
     1, -1 / (1 + (l_y_diff / l_x_diff) ^ 2) * l_y_diff / l_x_diff ^ 2,
        1 / (1 + (l_y_diff / l_x_diff) ^ 2) / l_x_diff, 0, 0]

/-- Constant from `KalmanFilter.__init__`: `self.A = np.eye(4)`. -/
def A_kf : M44 := 1

/-- Constant from `KalmanFilter.__init__`: `self.B` (input matrix at the frozen bearing,
scaled by `dt`). -/
def B_kf : Matrix (Fin 4) (Fin 2) ℝ :=
  dt • !![r / 2 * Real.cos phid, r / 2 * Real.cos phid;
          r / 2 * Real.sin phid, r / 2 * Real.sin phid;
          1, 0;
          0, 1]

/-- Constant from `KalmanFilter.__init__`: `self.C`. -/
def C_kf : Matrix (Fin 2) (Fin 4) ℝ := !![1, 0, 0, 0; 0, 1, 0, 0]

/-- Constant from `KalmanFilter.__init__`: `self.Q = np.eye(4) * 0.1`. -/
def Q_kf : M44 := Matrix.diagonal fun _ => 0.1

/-- Constant from `KalmanFilter.__init__`: `self.R = np.eye(2) * 0.1`. -/
def R_kf : M22 := Matrix.diagonal fun _ => 0.1

/-- Constant from `KalmanFilter.__init__`: `self.P = np.eye(4) * 0.1`. -/
def P0_kf : M44 := Matrix.diagonal fun _ => 0.1

/-- Constant from `ExtendedKalmanFilter.__init__`: `self.Q = 0.05 * np.eye(5)`. -/
def Q_ekf : M55 := Matrix.diagonal fun _ => 0.05

/-- Constant from `ExtendedKalmanFilter.__init__`: `self.R = 0.01 * np.eye(2)`. -/
def R_ekf : M22 := Matrix.diagonal fun _ => 0.01

/-- Constant from `ExtendedKalmanFilter.__init__`: `self.P = 0.05 * np.eye(5)`. -/
def P0_ekf : M55 := Matrix.diagonal fun _ => 0.05

/-- One iteration of the loop body of `KalmanFilter.update`, threading the
running 6-vector `x_hat` and the covariance `self.P`.  `np.linalg.inv(S)` is
Mathlib's matrix inverse (it agrees with numpy whenever `S` is invertible,
which holds at every reachable call since `P` stays diagonal positive; numpy
raises on a singular `S`, which never occurs).  The dead local
`dt = u_k[0] - x_prev[0]` of the source is never read and is omitted. -/
def kfCycle (st : S6 × M44) (uy : S3 × S3) : S6 × M44 :=
  let x_prev : V4 := ![st.1 2, st.1 3, st.1 4, st.1 5]
  let x_pred := A_kf.mulVec x_prev + B_kf.mulVec ![uy.1 1, uy.1 2]
  let P_pred := A_kf * st.2 * A_kfᵀ + Q_kf
  let S := C_kf * P_pred * C_kfᵀ + R_kf
  let K := P_pred * C_kfᵀ * S⁻¹
  let y_pred := C_kf.mulVec x_pred
  let x_upd := x_pred + K.mulVec (![uy.2 1, uy.2 2] - y_pred)
  let P' := (1 - K * C_kf) * P_pred
  (![uy.1 0, phid, x_upd 0, x_upd 1, x_upd 2, x_upd 3], P')

/-- The covariance component of one `KalmanFilter.update` loop iteration;
it does not depend on the state, input or measurement. -/
def cycleP (P : M44) : M44 :=
  let P_pred := A_kf * P * A_kfᵀ + Q_kf
  let S := C_kf * P_pred * C_kfᵀ + R_kf
  let K := P_pred * C_kfᵀ * S⁻¹
  (1 - K * C_kf) * P_pred

/-- The whole estimator state: the four buffers of the `Estimator` base class
plus the covariance attribute of the `KalmanFilter` (`P4`) and of the
`ExtendedKalmanFilter` (`P5`).  Each variant touches only its own fields. -/
structure St where
  u : List S3
  x : List S6
  y : List S3
  xh : List S6
  P4 : M44
  P5 : M55

/-- The state right after `__init__`: empty buffers, initial covariances. -/
def init : St := ⟨[], [], [], [], P0_kf, P0_ekf⟩

/-- Source method `OracleObserver.update`: appends `self.x[-1]` with no gate; raises
`IndexError` when `x` is empty. -/
def oracleUpdate (s : St) : Option St :=
  match s.x.getLast? with
  | none => none
  | some lx => some { s with xh := s.xh ++ [lx] }

/-- Source method `DeadReckoning.update`: gate
`len(self.x_hat) > 0 and self.x_hat[-1][0] < self.x[-1][0]` (Python `and`
short-circuits, so an empty `x_hat` is a no-op even with `x` empty); on
activation replays `g` over every buffered input from `x[0][1:]` and appends
`[x[-1][0]] + final`. -/
def drUpdate (s : St) : Option St :=
  match s.xh.getLast? with
  | none => some s
  | some lxh =>
    match s.x.getLast? with
    | none => none
    | some lx =>
      if lxh 0 < lx 0 then
        match s.x.head? with
        | none => none
        | some x0 =>
          some { s with
            xh := s.xh ++
              [Fin.cons (lx 0)
                (s.u.foldl (fun acc uk => g acc ![uk 1, uk 2])
                  (fun i => x0 i.succ))] }
      else some s

/-- Source method `KalmanFilter.update`: same gate; on activation restarts from the full
initial ground-truth sample `np.array(self.x[0])` and runs the loop body over
`k in range(len(self.u))`; `self.y[k]` raises `IndexError` when fewer
measurements than inputs are buffered. -/
def kfUpdate (s : St) : Option St :=
  match s.xh.getLast? with
  | none => some s
  | some lxh =>
    match s.x.getLast? with
    | none => none
    | some lx =>
      if lxh 0 < lx 0 then
        match s.x.head? with
        | none => none
        | some x0 =>
          if s.u.length ≤ s.y.length then
            let res := (s.u.zip s.y).foldl kfCycle (x0, s.P4)
            some { s with xh := s.xh ++ [res.1], P4 := res.2 }
          else none
      else some s

/-- Source method `ExtendedKalmanFilter.update`: same gate; one incremental cycle from
`self.x_hat[-1][1:]` using `self.u[-1]` and `self.y[-1]` (each raises
`IndexError` on an empty buffer), with the gain built from the abstract
pseudo-inverse `pinv` (`scipy.linalg.pinv`). -/
def ekfUpdate (pinv : M22 → M22) (s : St) : Option St :=
  match s.xh.getLast? with
  | none => some s
  | some lxh =>
    match s.x.getLast? with
    | none => none
    | some lx =>
      if lxh 0 < lx 0 then
        match s.u.getLast?, s.y.getLast? with
        | some lu, some ly =>
          let x_t : V5 := fun i => lxh i.succ
          let u_t : V2 := ![lu 1, lu 2]
          let x_t_1 := g x_t u_t
          let A := approx_A x_t u_t
          let P1 := A * s.P5 * Aᵀ + Q_ekf
          let C := approx_C x_t_1
          let K := P1 * Cᵀ * pinv (C * P1 * Cᵀ + R_ekf)
          let x_new := x_t_1 + K.mulVec (![ly 1, ly 2] - h x_t_1)
          let P2 := (1 - K * C) * P1
          some { s with xh := s.xh ++ [Fin.cons (lx 0) x_new], P5 := P2 }
        | _, _ => none
      else some s

/-- The estimator variants. -/
inductive Variant
  | oracle
  | dr
  | kf
  | ekf
deriving DecidableEq

/-- Dispatch of the overridden `update` method. -/
def update (pinv : M22 → M22) : Variant → St → Option St
  | .oracle => oracleUpdate
  | .dr => drUpdate
  | .kf => kfUpdate
  | .ekf => fun s => ekfUpdate pinv s

/-- An event of the single logical timeline: a subscription callback
delivering a message, or one firing of the periodic update timer. -/
inductive Event
  | cbu (m : S3)
  | cbx (m : S6)
  | cby (m : S3)
  | tick

/-- One event step.  The callbacks are `Estimator.callback_u`,
`Estimator.callback_x` (which also seeds `x_hat` when it is empty) and
`Estimator.callback_y`; `tick` invokes the variant's `update`. -/
def step (pinv : M22 → M22) (v : Variant) (s : St) : Event → Option St
  | .cbu m => some { s with u := s.u ++ [m] }
  | .cbx m =>
      some { s with x := s.x ++ [m], xh := if s.xh.isEmpty then s.xh ++ [m] else s.xh }
  | .cby m => some { s with y := s.y ++ [m] }
  | .tick => update pinv v s

/-- Run a list of events from a given state, aborting at the first raised
exception. -/
def runFrom (pinv : M22 → M22) (v : Variant) : St → List Event → Option St
  | s, [] => some s
  | s, e :: rest =>
    match step pinv v s e with
    | none => none
    | some s' => runFrom pinv v s' rest

/-- A run of the estimator node: events applied from the initial state. -/
def run (pinv : M22 → M22) (v : Variant) (evts : List Event) : Option St :=
  runFrom pinv v init evts

/-- The ground-truth messages delivered by a list of events, in order. -/
def xMsgs : List Event → List S6
  | [] => []
  | .cbx m :: rest => m :: xMsgs rest
  | _ :: rest => xMsgs rest

/-- Timestamp order on samples. -/
def tsLE (a b : S6) : Prop := a 0 ≤ b 0

/-- The Process Model written exactly as the spec's §4.1 component equations
(`integrate(state, input, dt) -> state'`), to be compared with the source's
matrix-product form `g`. -/
def integrate (x : V5) (uL uR : ℝ) : V5 :=
  ![x 0 + dt * (r / (2 * d)) * (uR - uL),
    x 1 + dt * (r / 2) * (uL + uR) * Real.cos (x 0),
    x 2 + dt * (r / 2) * (uL + uR) * Real.sin (x 0),
    x 3 + dt * uL,
    x 4 + dt * uR]

/-- The spec's §4.2 dead-reckoning replay: fold the Process Model over the
buffered inputs in arrival order, starting from the initial ground-truth
state. -/
def drReplaySpec (us : List S3) (x0 : V5) : V5 :=
  us.foldl (fun st uk => integrate st (uk 1) (uk 2)) x0

/-- The spec's §4.4 EKF recursion steps 1-6, written from the spec's words:
predict with the Process Model from the previous estimate, linearize, gain
from the pseudo-inverse of the innovation covariance, correct with the
innovation.  Returns (new estimate without timestamp, new covariance). -/
def ekfSpecStep (pinv : M22 → M22) (xprev : V5) (lu ly : S3) (P : M55) :
    V5 × M55 :=
  let x_pred := integrate xprev (lu 1) (lu 2)
  let A := approx_A xprev ![lu 1, lu 2]
  let Pp := A * P * Aᵀ + Q_ekf
  let C := approx_C x_pred
  let S := C * Pp * Cᵀ + R_ekf
  let K := Pp * Cᵀ * pinv S
  (x_pred + K.mulVec (![ly 1, ly 2] - h x_pred), (1 - K * C) * Pp)

/-- The action of `cycleP` on the diagonal of a diagonal covariance: the two
observed components are corrected, the two wheel components only inflate. -/
def cyclePd (dg : V4) : V4 :=
  ![(dg 0 + 0.1) * 0.1 / (dg 0 + 0.2),
    (dg 1 + 0.1) * 0.1 / (dg 1 + 0.2),
    dg 2 + 0.1,
    dg 3 + 0.1]

/-- A concrete pseudo-inverse instantiation used by witnesses. -/
def p0 : M22 → M22 := fun _ => 1

/-- Concrete input/measurement message with timestamp 0, all fields 0. -/
def zm3 : S3 := fun _ => 0

/-- Concrete ground-truth messages with all fields 0, 1, 2 respectively. -/
def xm0 : S6 := fun _ => 0

def xm1 : S6 := fun _ => 1

def xm2 : S6 := fun _ => 2

/-- A concrete gated state: seeded estimate from `xm0`, a fresher ground
truth `xm1`, one buffered input and one buffered measurement. -/
def stW : St := ⟨[zm3], [xm0, xm1], [zm3], [xm0], P0_kf, P0_ekf⟩

/-- A concrete gated state with empty input/measurement buffers. -/
def stW0 : St := ⟨[], [xm0, xm1], [], [xm0], P0_kf, P0_ekf⟩

/-- Length invariant of the gated, truth-stamped variants: the estimate
buffer never outgrows the truth buffer, and when they are equally long the
last estimate's stamp has caught up with the last truth stamp (so the gate
is closed). -/
def InvLen (s : St) : Prop :=
  s.xh.length ≤ s.x.length ∧
    ∀ lxh ∈ s.xh.getLast?, ∀ lx ∈ s.x.getLast?,
      s.xh.length = s.x.length → lx 0 ≤ lxh 0

/-- Timestamp invariant: estimate stamps are non-decreasing and never ahead
of the last truth stamp. -/
def InvChain (s : St) : Prop :=
  List.Chain' tsLE s.xh ∧
    ∀ lxh ∈ s.xh.getLast?, ∀ lx ∈ s.x.getLast?, lxh 0 ≤ lx 0

end

/-! ### Helper lemmas -/

/-- Componentwise evaluation of the source's process-model step. -/
lemma g_apply (x : V5) (u : V2) :
    g x u =
      ![x 0 + dt * (r / (2 * d)) * (u 1 - u 0),
        x 1 + dt * (r / 2) * (u 0 + u 1) * Real.cos (x 0),
        x 2 + dt * (r / 2) * (u 0 + u 1) * Real.sin (x 0),
        x 3 + dt * u 0,
        x 4 + dt * u 1] := by
  funext i
  fin_cases i <;>
    simp [g, Matrix.mulVec, Matrix.dotProduct, Fin.sum_univ_two] <;> ring

/-- The source's `g` agrees with the spec's componentwise `integrate`. -/
lemma g_eq_integrate (x : V5) (u : V2) : g x u = integrate x (u 0) (u 1) := by
  rw [g_apply]; rfl

/-- One covariance cycle of the linear Kalman filter maps a diagonal
covariance to the diagonal covariance `cyclePd`: with `A = I` the predicted
covariance is `P + Q`, the innovation covariance is diagonal, and the join
`(I - K C)(P + Q)` corrects the two observed components and inflates the
two unobserved ones. -/
lemma cycleP_diagonal (dg : V4) (hd : ∀ i, 0 < dg i) :
    cycleP (Matrix.diagonal dg) = Matrix.diagonal (cyclePd dg) := by
  have h0 : dg 0 + 0.2 ≠ 0 := by have := hd 0; positivity
  have h1 : dg 1 + 0.2 ≠ 0 := by have := hd 1; positivity
  have h0' : dg 0 * 5 + 1 ≠ 0 := ne_of_gt (by linarith [hd 0])
  have h1' : dg 1 * 5 + 1 ≠ 0 := ne_of_gt (by linarith [hd 1])
  have hpred : A_kf * Matrix.diagonal dg * A_kfᵀ + Q_kf =
      Matrix.diagonal (fun i => dg i + 0.1) := by
    simp [A_kf, Q_kf, Matrix.transpose_one, Matrix.diagonal_add]
  have hS : C_kf * Matrix.diagonal (fun i => dg i + 0.1) * C_kfᵀ + R_kf =
      Matrix.diagonal (![dg 0 + 0.2, dg 1 + 0.2] : V2) := by
    ext i j
    simp only [Matrix.add_apply, Matrix.mul_apply, Matrix.transpose_apply,
      Matrix.diagonal_apply, Fin.sum_univ_four, Fin.sum_univ_two]
    fin_cases i <;> fin_cases j <;> norm_num [C_kf, R_kf, Fin.ext_iff] <;> ring
  have hSinv : (Matrix.diagonal (![dg 0 + 0.2, dg 1 + 0.2] : V2))⁻¹ =
      Matrix.diagonal (![(dg 0 + 0.2)⁻¹, (dg 1 + 0.2)⁻¹] : V2) := by
    apply Matrix.inv_eq_right_inv
    ext i j
    simp only [Matrix.mul_apply, Matrix.diagonal_apply, Fin.sum_univ_two,
      Matrix.one_apply]
    fin_cases i <;> fin_cases j <;> norm_num [Fin.ext_iff] <;> field_simp
  show (1 - (A_kf * Matrix.diagonal dg * A_kfᵀ + Q_kf) * C_kfᵀ *
      (C_kf * (A_kf * Matrix.diagonal dg * A_kfᵀ + Q_kf) * C_kfᵀ + R_kf)⁻¹ *
      C_kf) * (A_kf * Matrix.diagonal dg * A_kfᵀ + Q_kf) =
      Matrix.diagonal (cyclePd dg)
  rw [hpred, hS, hSinv]
  ext i j
  simp only [Matrix.sub_apply, Matrix.mul_apply, Matrix.mul_diagonal,
    Matrix.diagonal_mul, Matrix.transpose_apply, Matrix.one_apply,
    Fin.sum_univ_two]
  fin_cases i <;> fin_cases j <;>
    simp +decide [Matrix.diagonal_apply, C_kf, cyclePd] <;> field_simp <;> ring

/-- The diagonal covariance recursion keeps every entry positive. -/
lemma cyclePd_pos (dg : V4) (hd : ∀ i, 0 < dg i) : ∀ i, 0 < cyclePd dg i := by
  intro i
  fin_cases i <;> simp only [cyclePd]
  · have := hd 0
    norm_num
    apply div_pos (by nlinarith) (by nlinarith)
  · have := hd 1
    norm_num
    apply div_pos (by nlinarith) (by nlinarith)
  · have := hd 2
    norm_num
    nlinarith
  · have := hd 3
    norm_num
    nlinarith

/-- The covariance component of a `kfCycle` step is `cycleP` of the incoming
covariance: it ignores the threaded state and the input/measurement pair. -/
lemma kfCycle_snd (st : S6 × M44) (uy : S3 × S3) :
    (kfCycle st uy).2 = cycleP st.2 := rfl

/-- The covariance component of the whole `KalmanFilter.update` replay is
`cycleP` iterated once per replayed pair. -/
lemma foldl_kfCycle_snd (pairs : List (S3 × S3)) :
    ∀ b : S6 × M44, ((pairs.foldl kfCycle b).2 = cycleP^[pairs.length] b.2) := by
  induction pairs with
  | nil => intro b; rfl
  | cons p ps ih =>
    intro b
    show (ps.foldl kfCycle (kfCycle b p)).2 = cycleP^[ps.length + 1] b.2
    rw [ih (kfCycle b p), kfCycle_snd, Function.iterate_succ_apply]

/-- The replay fold keeps the covariance diagonal with positive entries. -/
lemma foldl_kfCycle_diag (pairs : List (S3 × S3)) :
    ∀ b : S6 × M44, (∃ dg, (∀ i, 0 < dg i) ∧ b.2 = Matrix.diagonal dg) →
      ∃ dg, (∀ i, 0 < dg i) ∧ (pairs.foldl kfCycle b).2 = Matrix.diagonal dg := by
  induction pairs with
  | nil => intro b hb; exact hb
  | cons p ps ih =>
    intro b hb
    obtain ⟨dg, hd, hP⟩ := hb
    refine ih (kfCycle b p) ⟨cyclePd dg, cyclePd_pos dg hd, ?_⟩
    rw [kfCycle_snd, hP, cycleP_diagonal dg hd]

/-- The state component of the replay fold over a nonempty pair list carries
the last pair's input timestamp and the frozen bearing `phid`. -/
lemma foldl_kfCycle_last (pairs : List (S3 × S3)) :
    ∀ (b : S6 × M44) (pl : S3 × S3), pairs.getLast? = some pl →
      (pairs.foldl kfCycle b).1 0 = pl.1 0 ∧
        (pairs.foldl kfCycle b).1 1 = phid := by
  induction pairs with
  | nil => intro b pl hl; simp at hl
  | cons p ps ih =>
    intro b pl hl
    cases ps with
    | nil =>
      simp at hl
      subst hl
      exact ⟨by simp [kfCycle], by simp [kfCycle]⟩
    | cons q qs =>
      rw [List.getLast?_cons_cons] at hl
      exact ih (kfCycle b p) pl hl

/-- A `KalmanFilter` step only touches `P4` through the replay fold. -/
lemma kf_P4_pres (pinv : M22 → M22) (s : St) (e : Event) (s' : St)
    (hs : step pinv Variant.kf s e = some s')
    (hq : ∃ dg, (∀ i, 0 < dg i) ∧ s.P4 = Matrix.diagonal dg) :
    ∃ dg, (∀ i, 0 < dg i) ∧ s'.P4 = Matrix.diagonal dg := by
  cases e with
  | cbu m => obtain rfl := Option.some.inj hs; exact hq
  | cbx m => obtain rfl := Option.some.inj hs; exact hq
  | cby m => obtain rfl := Option.some.inj hs; exact hq
  | tick =>
    simp only [step, update, kfUpdate] at hs
    split at hs
    · exact (Option.some.inj hs) ▸ hq
    · split at hs
      · exact absurd hs (by simp)
      · split at hs
        · split at hs
          · exact absurd hs (by simp)
          · split at hs
            · obtain rfl := Option.some.inj hs
              exact foldl_kfCycle_diag _ _ hq
            · exact absurd hs (by simp)
        · exact (Option.some.inj hs) ▸ hq

/-- Along the x-coordinate at the operating point `(phi, x, y) =
`(0, 0.2, 0.2)`, the second measurement component is
`-arctan((1/2 - t) / (3/10))` (the landmark offsets are positive there). -/
lemma h_bearing_slice : (fun t : ℝ => h ![0, t, 1/5, 0, 0] 1) =
    (fun t : ℝ => -(Real.arctan ((1/2 - t) / (3/10)))) := by
  funext t
  simp [h, arctan2, landmark]
  rw [if_pos (show (5:ℝ)⁻¹ < 0.5 by norm_num)]
  norm_num

/-- The dead-reckoning fold of the source (`g` over sliced input messages)
agrees with the spec's replay of `integrate`. -/
lemma foldl_g_integrate (us : List S3) :
    ∀ b : V5, us.foldl (fun acc uk => g acc ![uk 1, uk 2]) b =
      drReplaySpec us b := by
  induction us with
  | nil => intro b; rfl
  | cons uk rest ih =>
    intro b
    show rest.foldl _ (g b ![uk 1, uk 2]) = rest.foldl _ (integrate b (uk 1) (uk 2))
    rw [g_eq_integrate]
    exact ih _

/-- Structural shape of every variant's `update`: it is either a no-op or it
appends exactly one sample to `x_hat`, leaving the three ingestion buffers
unchanged; an append requires a nonempty `x`, for the gated variants a passed
gate, and for `DeadReckoning`/`ExtendedKalmanFilter` the appended sample is
stamped with the latest ground-truth timestamp. -/
lemma update_shape (pinv : M22 → M22) (v : Variant) (s s' : St)
    (hu : update pinv v s = some s') :
    s' = s ∨
      ∃ a, s'.u = s.u ∧ s'.x = s.x ∧ s'.y = s.y ∧ s'.xh = s.xh ++ [a] ∧
        s.x ≠ [] ∧
        (v = .oracle → ∃ lx, s.x.getLast? = some lx ∧ a = lx) ∧
        (v ≠ .oracle →
          ∃ lxh lx, s.xh.getLast? = some lxh ∧ s.x.getLast? = some lx ∧
            lxh 0 < lx 0) ∧
        ((v = .dr ∨ v = .ekf) → ∃ lx, s.x.getLast? = some lx ∧ a 0 = lx 0) := by
  have hne : ∀ {lx : S6}, s.x.getLast? = some lx → s.x ≠ [] := by
    intro lx hlx hnil
    rw [hnil] at hlx
    simp at hlx
  cases v with
  | oracle =>
    simp only [update, oracleUpdate] at hu
    split at hu
    · exact absurd hu (by simp)
    · next lx hx =>
      obtain rfl := Option.some.inj hu
      exact Or.inr ⟨lx, rfl, rfl, rfl, rfl, hne hx, fun _ => ⟨lx, hx, rfl⟩,
        fun hv => absurd rfl hv,
        fun hv => by rcases hv with hv | hv <;> exact absurd hv (by simp)⟩
  | dr =>
    simp only [update, drUpdate] at hu
    split at hu
    · exact Or.inl (Option.some.inj hu).symm
    · next lxh hxh =>
      split at hu
      · exact absurd hu (by simp)
      · next lx hx =>
        split at hu
        · next hlt =>
          split at hu
          · exact absurd hu (by simp)
          · next x0 hx0 =>
            obtain rfl := Option.some.inj hu
            exact Or.inr ⟨_, rfl, rfl, rfl, rfl, hne hx,
              fun hv => absurd hv (by simp),
              fun _ => ⟨lxh, lx, hxh, hx, hlt⟩,
              fun _ => ⟨lx, hx, by simp⟩⟩
        · exact Or.inl (Option.some.inj hu).symm
  | kf =>
    simp only [update, kfUpdate] at hu
    split at hu
    · exact Or.inl (Option.some.inj hu).symm
    · next lxh hxh =>
      split at hu
      · exact absurd hu (by simp)
      · next lx hx =>
        split at hu
        · next hlt =>
          split at hu
          · exact absurd hu (by simp)
          · next x0 hx0 =>
            split at hu
            · obtain rfl := Option.some.inj hu
              exact Or.inr ⟨_, rfl, rfl, rfl, rfl, hne hx,
                fun hv => absurd hv (by simp),
                fun _ => ⟨lxh, lx, hxh, hx, hlt⟩,
                fun hv => by rcases hv with hv | hv <;> exact absurd hv (by simp)⟩
            · exact absurd hu (by simp)
        · exact Or.inl (Option.some.inj hu).symm
  | ekf =>
    simp only [update, ekfUpdate] at hu
    split at hu
    · exact Or.inl (Option.some.inj hu).symm
    · next lxh hxh =>
      split at hu
      · exact absurd hu (by simp)
      · next lx hx =>
        split at hu
        · next hlt =>
          split at hu
          · next lu ly hlu hly =>
            obtain rfl := Option.some.inj hu
            exact Or.inr ⟨_, rfl, rfl, rfl, rfl, hne hx,
              fun hv => absurd hv (by simp),
              fun _ => ⟨lxh, lx, hxh, hx, hlt⟩,
              fun _ => ⟨lx, hx, by simp⟩⟩
          · exact absurd hu (by simp)
        · exact Or.inl (Option.some.inj hu).symm

/-- Generic invariant induction along a run, where the invariant may also
consume the remaining events. -/
lemma runFrom_ind (pinv : M22 → M22) (v : Variant)
    (Q : St → List Event → Prop)
    (hstep : ∀ s e rest s', Q s (e :: rest) → step pinv v s e = some s' →
      Q s' rest) :
    ∀ evts s0 s, Q s0 evts → runFrom pinv v s0 evts = some s → Q s [] := by
  intro evts
  induction evts with
  | nil =>
    intro s0 s hq hr
    simp only [runFrom] at hr
    exact (Option.some.inj hr) ▸ hq
  | cons e rest ih =>
    intro s0 s hq hr
    cases hs : step pinv v s0 e with
    | none => rw [runFrom, hs] at hr; exact absurd hr (by simp)
    | some s1 =>
      rw [runFrom, hs] at hr
      exact ih s1 s (hstep s0 e rest s1 hq hs) hr

/-- Along a successful run, the ground-truth buffer is exactly the list of
delivered ground-truth messages. -/
lemma runFrom_x (pinv : M22 → M22) (v : Variant) :
    ∀ evts s0 s, runFrom pinv v s0 evts = some s →
      s.x = s0.x ++ xMsgs evts := by
  intro evts
  induction evts with
  | nil =>
    intro s0 s hr
    simp only [runFrom] at hr
    rw [← Option.some.inj hr]
    simp [xMsgs]
  | cons e rest ih =>
    intro s0 s hr
    cases hs : step pinv v s0 e with
    | none => rw [runFrom, hs] at hr; exact absurd hr (by simp)
    | some s1 =>
      rw [runFrom, hs] at hr
      have hx1 : s1.x = s0.x ++ xMsgs [e] := by
        cases e with
        | cbu m => obtain rfl := Option.some.inj hs; simp [step, xMsgs]
        | cbx m => obtain rfl := Option.some.inj hs; simp [step, xMsgs]
        | cby m => obtain rfl := Option.some.inj hs; simp [step, xMsgs]
        | tick =>
          rcases update_shape pinv v s0 s1 hs with rfl | ⟨a, _, hx, _⟩
          · simp [xMsgs]
          · rw [hx]; simp [xMsgs]
      rw [ih s1 s hr, hx1]
      cases e <;> simp [xMsgs]

/-- Unfolding equation for `runFrom` on a cons cell. -/
lemma runFrom_cons (pinv : M22 → M22) (v : Variant) (s : St) (e : Event)
    (rest : List Event) :
    runFrom pinv v s (e :: rest) =
      match step pinv v s e with
      | none => none
      | some s' => runFrom pinv v s' rest := rfl

/-- One step preserves the seeding invariant `x_hat.head? = x.head?`. -/
lemma seed_pres (pinv : M22 → M22) (v : Variant) (s : St) (e : Event) (s' : St)
    (hq : s.xh.head? = s.x.head?) (hs : step pinv v s e = some s') :
    s'.xh.head? = s'.x.head? := by
  cases e with
  | cbu m => obtain rfl := Option.some.inj hs; exact hq
  | cby m => obtain rfl := Option.some.inj hs; exact hq
  | cbx m =>
    obtain rfl := Option.some.inj hs
    cases hxh : s.xh with
    | nil =>
      have hx : s.x = [] := by
        rw [hxh] at hq
        exact List.head?_eq_none_iff.mp hq.symm
      simp [hxh, hx]
    | cons a t =>
      rw [hxh] at hq
      cases hx : s.x with
      | nil => rw [hx] at hq; simp at hq
      | cons b t' =>
        rw [hx] at hq
        simp at hq
        simp [hxh, hx, hq]
  | tick =>
    rcases update_shape pinv v s s' hs with rfl | ⟨a, _, hx, _, hxh, hxne, _⟩
    · exact hq
    · rw [hx, hxh]
      cases hxl : s.x with
      | nil => exact absurd hxl hxne
      | cons b t =>
        rw [hxl] at hq
        cases hxhl : s.xh with
        | nil => rw [hxhl] at hq; simp at hq
        | cons c t2 => rw [hxhl] at hq; simpa using hq

/-- C1 helper: the seeding invariant holds in every reachable state. -/
lemma run_seed (pinv : M22 → M22) (v : Variant) (evts : List Event) (s : St)
    (hr : run pinv v evts = some s) : s.xh.head? = s.x.head? :=
  runFrom_ind pinv v (fun s _ => s.xh.head? = s.x.head?)
    (fun s e rest s' hq hs => seed_pres pinv v s e s' hq hs)
    evts init s (by simp [init]) hr

/-- One step of a truth-stamped gated variant (`DeadReckoning` or
`ExtendedKalmanFilter`) preserves the length invariant. -/
lemma len_pres (pinv : M22 → M22) (v : Variant) (hv : v = .dr ∨ v = .ekf)
    (s : St) (e : Event) (s' : St) (hq : InvLen s)
    (hs : step pinv v s e = some s') : InvLen s' := by
  obtain ⟨hlen, hlast⟩ := hq
  cases e with
  | cbu m => obtain rfl := Option.some.inj hs; exact ⟨hlen, hlast⟩
  | cby m => obtain rfl := Option.some.inj hs; exact ⟨hlen, hlast⟩
  | cbx m =>
    obtain rfl := Option.some.inj hs
    cases hxh : s.xh with
    | nil =>
      constructor
      · simp
      · intro lxh hlxh lx hlx _
        have h1 : m = lxh := by simpa using hlxh
        have h2 : m = lx := by simpa using hlx
        rw [← h1, ← h2]
    | cons c t =>
      rw [hxh] at hlen
      constructor
      · have hgoal : (c :: t).length ≤ (s.x ++ [m]).length := by
          simp only [List.length_append, List.length_singleton]
          omega
        simpa using hgoal
      · intro lxh hlxh lx hlx heq
        have hlen' : t.length + 1 ≤ s.x.length := by simpa using hlen
        have heq' : t.length + 1 = s.x.length + 1 := by simpa using heq
        omega
  | tick =>
    rcases update_shape pinv v s s' hs with rfl | hsh
    · exact ⟨hlen, hlast⟩
    · obtain ⟨a, _, hxeq, _, hxh', hxne, _, hgate, hdrekf⟩ := hsh
      have hvo : v ≠ .oracle := by rcases hv with rfl | rfl <;> decide
      obtain ⟨lxh, lx, hlxh, hlx, hlt⟩ := hgate hvo
      obtain ⟨lx', hlx', ha0⟩ := hdrekf hv
      rw [hlx] at hlx'
      obtain rfl := Option.some.inj hlx'
      have hne : s.xh.length ≠ s.x.length := by
        intro heq
        have := hlast lxh hlxh lx hlx heq
        exact absurd hlt (not_lt.mpr this)
      constructor
      · rw [hxh', hxeq]
        simp only [List.length_append, List.length_singleton]
        omega
      · intro lxh' hlxh' lx'' hlx'' _
        rw [hxh', List.getLast?_concat] at hlxh'
        have hA : a = lxh' := Option.mem_some_iff.mp hlxh'
        rw [hxeq, hlx] at hlx''
        have hL : lx = lx'' := Option.mem_some_iff.mp hlx''
        rw [← hA, ← hL, ha0]

/-- One step of any non-`KalmanFilter` variant preserves the timestamp-chain
invariant, given that the remaining ground-truth messages arrive in
timestamp order. -/
lemma chain_pres (pinv : M22 → M22) (v : Variant) (hv : v ≠ .kf)
    (s : St) (e : Event) (rest : List Event) (s' : St)
    (hq : (s.xh.head? = s.x.head?) ∧ InvChain s ∧
      List.Chain' tsLE (s.x ++ xMsgs (e :: rest)))
    (hs : step pinv v s e = some s') :
    (s'.xh.head? = s'.x.head?) ∧ InvChain s' ∧
      List.Chain' tsLE (s'.x ++ xMsgs rest) := by
  obtain ⟨hh, ⟨hch, hlast⟩, hcx⟩ := hq
  refine ⟨seed_pres pinv v s e s' hh hs, ?_⟩
  cases e with
  | cbu m =>
    obtain rfl := Option.some.inj hs
    exact ⟨⟨hch, hlast⟩, hcx⟩
  | cby m =>
    obtain rfl := Option.some.inj hs
    exact ⟨⟨hch, hlast⟩, hcx⟩
  | cbx m =>
    obtain rfl := Option.some.inj hs
    have hcx' : List.Chain' tsLE ((s.x ++ [m]) ++ xMsgs rest) := by
      rw [List.append_assoc]
      exact hcx
    refine ⟨⟨?_, ?_⟩, hcx'⟩
    · cases hxh : s.xh with
      | nil => simp
      | cons c t =>
        rw [hxh] at hch
        simpa [List.isEmpty_cons] using hch
    · intro lxh hlxh lx hlx
      have hmlx : m = lx := by simpa using hlx
      subst hmlx
      cases hxh : s.xh with
      | nil =>
        have h1 : m = lxh := by
          rw [hxh] at hlxh; simpa using hlxh
        rw [← h1]
      | cons c t =>
        rw [hxh] at hlxh
        have hlxh' : (c :: t).getLast? = some lxh := by simpa using hlxh
        cases hxl : s.x with
        | nil =>
          rw [hxh, hxl] at hh
          simp at hh
        | cons b t' =>
          cases hlbo : s.x.getLast? with
          | none =>
            rw [hxl] at hlbo
            simp at hlbo
          | some lb =>
            have h1 : lxh 0 ≤ lb 0 :=
              hlast lxh (by rw [Option.mem_def, hxh]; exact hlxh') lb hlbo
            have h2 : tsLE lb m := by
              have hadj := (List.chain'_append.mp hcx).2.2
              exact hadj lb hlbo m (by simp [xMsgs])
            exact le_trans h1 h2
  | tick =>
    rcases update_shape pinv v s s' hs with rfl | hsh
    · exact ⟨⟨hch, hlast⟩, hcx⟩
    · obtain ⟨a, _, hxeq, _, hxh', hxne, horacle, hgate, hdrekf⟩ := hsh
      have key : (∀ lxh ∈ s.xh.getLast?, lxh 0 ≤ a 0) ∧
          (∀ lx ∈ s.x.getLast?, a 0 ≤ lx 0) := by
        cases v with
        | kf => exact absurd rfl hv
        | oracle =>
          obtain ⟨lx, hlx, hax⟩ := horacle rfl
          constructor
          · intro lxh hlxh
            rw [hax]
            exact hlast lxh hlxh lx hlx
          · intro lx' hlx'
            rw [hlx] at hlx'
            have hll : lx = lx' := Option.mem_some_iff.mp hlx'
            rw [hax, ← hll]
        | dr =>
          obtain ⟨lxh, lx, hlxh, hlx, hlt⟩ := hgate (by decide)
          obtain ⟨lx', hlx', ha0⟩ := hdrekf (Or.inl rfl)
          rw [hlx] at hlx'
          obtain rfl := Option.some.inj hlx'
          constructor
          · intro lxh' hlxh'
            rw [hlxh] at hlxh'
            have hll : lxh = lxh' := Option.mem_some_iff.mp hlxh'
            rw [← hll, ha0]
            exact le_of_lt hlt
          · intro lx'' hlx''
            rw [hlx] at hlx''
            have hll : lx = lx'' := Option.mem_some_iff.mp hlx''
            rw [← hll, ha0]
        | ekf =>
          obtain ⟨lxh, lx, hlxh, hlx, hlt⟩ := hgate (by decide)
          obtain ⟨lx', hlx', ha0⟩ := hdrekf (Or.inr rfl)
          rw [hlx] at hlx'
          obtain rfl := Option.some.inj hlx'
          constructor
          · intro lxh' hlxh'
            rw [hlxh] at hlxh'
            have hll : lxh = lxh' := Option.mem_some_iff.mp hlxh'
            rw [← hll, ha0]
            exact le_of_lt hlt
          · intro lx'' hlx''
            rw [hlx] at hlx''
            have hll : lx = lx'' := Option.mem_some_iff.mp hlx''
            rw [← hll, ha0]
      refine ⟨⟨?_, ?_⟩, by rw [hxeq]; exact hcx⟩
      · rw [hxh']
        refine List.chain'_append.mpr ⟨hch, List.chain'_singleton a, ?_⟩
        intro p hp q hq'
        have hqa : a = q := by simpa using hq'
        rw [← hqa]
        exact key.1 p hp
      · intro lxh' hlxh' lx' hlx'
        rw [hxh', List.getLast?_concat] at hlxh'
        have hA : a = lxh' := Option.mem_some_iff.mp hlxh'
        rw [hxeq] at hlx'
        rw [← hA]
        exact key.2 lx' hlx'

/-! ### Claim theorems -/

/-- C1: for every run of every estimator variant, `x_hat` is nonempty exactly
when `x` is, and its first element is the verbatim copy (all six fields) of
the first ground-truth sample: `x_hat.head? = x.head?` in every reachable
state, for every pseudo-inverse instantiation. -/
theorem c1_seeded_verbatim (pinv : M22 → M22) (v : Variant)
    (evts : List Event) (s : St) (hr : run pinv v evts = some s) :
    s.xh.head? = s.x.head? :=
  run_seed pinv v evts s hr

/-- Witness for C1 at a concrete oracle run delivering one ground-truth
sample and one timer tick. -/
theorem c1_seeded_verbatim_witness :
    (⟨[], [xm0], [], [xm0, xm0], P0_kf, P0_ekf⟩ : St).xh.head? =
      (⟨[], [xm0], [], [xm0, xm0], P0_kf, P0_ekf⟩ : St).x.head? :=
  c1_seeded_verbatim p0 .oracle [Event.cbx xm0, Event.tick] _ rfl

/-- C8 counterexample: with all buffers empty, the `OracleObserver` update is
not a no-op: it indexes the empty truth buffer (`self.x[-1]`, an
`IndexError`), modelled as `none`. -/
theorem c8_counterexample :
    step p0 Variant.oracle init Event.tick = none ∧
      step p0 Variant.oracle init Event.tick ≠ some init := by
  constructor
  · rfl
  · intro hcon
    simp [step, update, oracleUpdate, init] at hcon

/-- C8 amended: the three gated variants short-circuit on an empty estimate
buffer and no-op (never touching `x[-1]`), while the `OracleObserver`
dereferences the empty truth buffer and raises. -/
theorem c8_gated_noop (pinv : M22 → M22) (v : Variant) (s : St) :
    (v ≠ .oracle → s.xh = [] → step pinv v s Event.tick = some s) ∧
      (s.x = [] → step pinv .oracle s Event.tick = none) := by
  constructor
  · intro hv hxh
    cases v with
    | oracle => exact absurd rfl hv
    | dr => simp [step, update, drUpdate, hxh]
    | kf => simp [step, update, kfUpdate, hxh]
    | ekf => simp [step, update, ekfUpdate, hxh]
  · intro hx
    simp [step, update, oracleUpdate, hx]

/-- Witness for C8 at the post-`__init__` state. -/
theorem c8_gated_noop_witness :
    step p0 Variant.dr init Event.tick = some init ∧
      step p0 Variant.oracle init Event.tick = none :=
  ⟨(c8_gated_noop p0 .dr init).1 (by decide) rfl,
   (c8_gated_noop p0 .oracle init).2 rfl⟩

/-- C2 amended: for every interleaving, the `DeadReckoning` and
`ExtendedKalmanFilter` estimate buffers never outgrow the truth buffer; the
truth buffer's stamps are non-decreasing whenever the delivered ground-truth
messages are; and the estimate stamps are non-decreasing for every variant
except the `KalmanFilter` (which stamps estimates with the last *input*
timestamp).  The `OracleObserver` length bound and the `KalmanFilter` bound
and stamp order fail: see the counterexample. -/
theorem c2_growth_amended (pinv : M22 → M22) (v : Variant)
    (evts : List Event) (s : St) (hr : run pinv v evts = some s) :
    ((v = .dr ∨ v = .ekf) → s.xh.length ≤ s.x.length) ∧
      (List.Chain' tsLE (xMsgs evts) →
        List.Chain' tsLE s.x ∧ (v ≠ .kf → List.Chain' tsLE s.xh)) := by
  constructor
  · intro hv
    exact (runFrom_ind pinv v (fun st _ => InvLen st)
      (fun st e rest st' hq hs => len_pres pinv v hv st e st' hq hs)
      evts init s (by constructor <;> simp [init]) hr).1
  · intro hch
    have hx : s.x = xMsgs evts := by
      have := runFrom_x pinv v evts init s hr
      simpa [init] using this
    refine ⟨by rw [hx]; exact hch, ?_⟩
    intro hv
    have hq0 : (init.xh.head? = init.x.head?) ∧ InvChain init ∧
        List.Chain' tsLE (init.x ++ xMsgs evts) := by
      refine ⟨rfl, ⟨List.chain'_nil, ?_⟩, by simpa [init] using hch⟩
      intro lxh hlxh
      simp [init] at hlxh
    exact (runFrom_ind pinv v
      (fun st rest => (st.xh.head? = st.x.head?) ∧ InvChain st ∧
        List.Chain' tsLE (st.x ++ xMsgs rest))
      (fun st e rest st' hq hs => chain_pres pinv v hv st e rest st' hq hs)
      evts init s hq0 hr).2.1.1

/-- Witness for C2 at a one-message `DeadReckoning` run. -/
theorem c2_growth_amended_witness :
    (⟨[], [xm0], [], [xm0], P0_kf, P0_ekf⟩ : St).xh.length ≤
        (⟨[], [xm0], [], [xm0], P0_kf, P0_ekf⟩ : St).x.length ∧
      List.Chain' tsLE (⟨[], [xm0], [], [xm0], P0_kf, P0_ekf⟩ : St).x ∧
        List.Chain' tsLE (⟨[], [xm0], [], [xm0], P0_kf, P0_ekf⟩ : St).xh := by
  have hmain := c2_growth_amended p0 .dr [Event.cbx xm0]
    ⟨[], [xm0], [], [xm0], P0_kf, P0_ekf⟩ rfl
  have hch : List.Chain' tsLE (xMsgs [Event.cbx xm0]) := by simp [xMsgs]
  exact ⟨hmain.1 (Or.inl rfl), (hmain.2 hch).1, (hmain.2 hch).2 (by decide)⟩

/-- C2 counterexample: (a) after one ground-truth sample and one tick the
`OracleObserver` has 2 estimates against 1 truth sample; (b) with an input
stamped 0 arriving before truth samples stamped 1 and 2, two `KalmanFilter`
ticks leave 3 estimates against 2 truth samples, with estimate stamps
`[1, 0, 0]`, which are not non-decreasing. -/
theorem c2_counterexample :
    (run p0 Variant.oracle [Event.cbx xm0, Event.tick]).map
        (fun s => decide (s.xh.length ≤ s.x.length)) = some false ∧
      (run p0 Variant.kf [Event.cbu zm3, Event.cby zm3, Event.cbx xm1,
          Event.cbx xm2, Event.tick, Event.tick]).map
        (fun s => (decide (s.xh.length ≤ s.x.length),
          s.xh.map fun a => a 0)) = some (false, [1, 0, 0]) ∧
      ¬ List.Chain' (· ≤ ·) [(1 : ℝ), 0, 0] := by
  refine ⟨rfl, ?_, by simp⟩
  have he1 : (kfCycle (xm1, P0_kf) (zm3, zm3)).1 0 = 0 := by
    simp [kfCycle, zm3]
  have he2 : (kfCycle (xm1, (kfCycle (xm1, P0_kf) (zm3, zm3)).2)
      (zm3, zm3)).1 0 = 0 := by
    simp [kfCycle, zm3]
  have hgate1 : (xm1 0 : ℝ) < xm2 0 := by norm_num [xm1, xm2]
  have h5 : step p0 Variant.kf
      (⟨[zm3], [xm1, xm2], [zm3], [xm1], P0_kf, P0_ekf⟩ : St) Event.tick =
      some (⟨[zm3], [xm1, xm2], [zm3],
        [xm1, (kfCycle (xm1, P0_kf) (zm3, zm3)).1],
        (kfCycle (xm1, P0_kf) (zm3, zm3)).2, P0_ekf⟩ : St) := by
    simp only [step, update, kfUpdate, List.getLast?_cons_cons,
      List.getLast?_singleton, List.head?_cons]
    rw [if_pos hgate1]
    rfl
  have hgate2 : ((kfCycle (xm1, P0_kf) (zm3, zm3)).1 0 : ℝ) < xm2 0 := by
    rw [he1]; norm_num [xm2]
  have h6 : step p0 Variant.kf
      (⟨[zm3], [xm1, xm2], [zm3],
        [xm1, (kfCycle (xm1, P0_kf) (zm3, zm3)).1],
        (kfCycle (xm1, P0_kf) (zm3, zm3)).2, P0_ekf⟩ : St) Event.tick =
      some (⟨[zm3], [xm1, xm2], [zm3],
        [xm1, (kfCycle (xm1, P0_kf) (zm3, zm3)).1,
          (kfCycle (xm1, (kfCycle (xm1, P0_kf) (zm3, zm3)).2) (zm3, zm3)).1],
        (kfCycle (xm1, (kfCycle (xm1, P0_kf) (zm3, zm3)).2) (zm3, zm3)).2,
        P0_ekf⟩ : St) := by
    simp only [step, update, kfUpdate, List.getLast?_cons_cons,
      List.getLast?_singleton, List.head?_cons]
    rw [if_pos hgate2]
    rfl
  have hrun : run p0 Variant.kf [Event.cbu zm3, Event.cby zm3, Event.cbx xm1,
      Event.cbx xm2, Event.tick, Event.tick] =
      some (⟨[zm3], [xm1, xm2], [zm3],
        [xm1, (kfCycle (xm1, P0_kf) (zm3, zm3)).1,
          (kfCycle (xm1, (kfCycle (xm1, P0_kf) (zm3, zm3)).2) (zm3, zm3)).1],
        (kfCycle (xm1, (kfCycle (xm1, P0_kf) (zm3, zm3)).2) (zm3, zm3)).2,
        P0_ekf⟩ : St) := by
    show runFrom p0 Variant.kf
      (⟨[zm3], [xm1, xm2], [zm3], [xm1], P0_kf, P0_ekf⟩ : St)
      [Event.tick, Event.tick] = _
    rw [runFrom_cons, h5]
    show runFrom p0 Variant.kf
      (⟨[zm3], [xm1, xm2], [zm3],
        [xm1, (kfCycle (xm1, P0_kf) (zm3, zm3)).1],
        (kfCycle (xm1, P0_kf) (zm3, zm3)).2, P0_ekf⟩ : St) [Event.tick] = _
    rw [runFrom_cons, h6]
    rfl
  rw [hrun]
  simp [he1, he2, xm1]

/-- C6: the process-model step is the componentwise explicit-Euler update of
the differential-drive kinematics, with the trig terms at the pre-step
bearing `x 0` (shared verbatim by `DeadReckoning.g` and
`ExtendedKalmanFilter.g`, both embedded as `g`). -/
theorem c6_process_model (x : V5) (u : V2) :
    g x u =
      ![x 0 + dt * (r / (2 * d)) * (u 1 - u 0),
        x 1 + dt * (r / 2) * (u 0 + u 1) * Real.cos (x 0),
        x 2 + dt * (r / 2) * (u 0 + u 1) * Real.sin (x 0),
        x 3 + dt * u 0,
        x 4 + dt * u 1] :=
  g_apply x u

/-- C7: on a gated activation, `DeadReckoning.update` appends exactly one
estimate: the spec's replay of the Process Model over every buffered input
in arrival order, seeded from the initial ground-truth state `x[0][1:]`,
stamped with the latest ground-truth timestamp; everything else in the state
is unchanged and all intermediate fold states are discarded. -/
theorem c7_dr_from_scratch (s : St) (lxh lx x0 : S6)
    (hxh : s.xh.getLast? = some lxh) (hlx : s.x.getLast? = some lx)
    (hx0 : s.x.head? = some x0) (hgate : lxh 0 < lx 0) :
    drUpdate s = some { s with xh := s.xh ++
      [Fin.cons (lx 0) (drReplaySpec s.u (fun i => x0 i.succ))] } := by
  simp only [drUpdate, hxh, hlx, hx0, if_pos hgate, foldl_g_integrate]

/-- Witness for C7 at a concrete gated state with empty input buffer. -/
theorem c7_dr_from_scratch_witness :
    stW0.xh.getLast? = some xm0 ∧ stW0.x.getLast? = some xm1 ∧
      stW0.x.head? = some xm0 ∧ xm0 0 < xm1 0 ∧
      drUpdate stW0 = some { stW0 with xh := stW0.xh ++
        [Fin.cons (xm1 0) (drReplaySpec stW0.u (fun i => xm0 i.succ))] } :=
  ⟨rfl, rfl, rfl, by norm_num [xm0, xm1],
    c7_dr_from_scratch stW0 xm0 xm1 xm0 rfl rfl rfl (by norm_num [xm0, xm1])⟩

/-- C5: on a gated activation, `ExtendedKalmanFilter.update` performs the
spec's single incremental predict/update cycle — seeded from the previous
estimate `x_hat[-1][1:]` (not replayed from the start), using only the latest
buffered input and measurement, predicting with the Process Model,
propagating covariance through `approx_A`, building the gain from the
pseudo-inverse of the innovation covariance `C·P·Cᵀ + R`, correcting with the
innovation `y_latest - h(x_pred)` — and appends exactly one estimate stamped
with the latest ground-truth timestamp, for every pseudo-inverse function. -/
theorem c5_ekf_incremental (pinv : M22 → M22) (s : St) (lxh lx : S6)
    (lu ly : S3)
    (hxh : s.xh.getLast? = some lxh) (hlx : s.x.getLast? = some lx)
    (hgate : lxh 0 < lx 0) (hlu : s.u.getLast? = some lu)
    (hly : s.y.getLast? = some ly) :
    ekfUpdate pinv s = some { s with
      xh := s.xh ++ [Fin.cons (lx 0)
        (ekfSpecStep pinv (fun i => lxh i.succ) lu ly s.P5).1],
      P5 := (ekfSpecStep pinv (fun i => lxh i.succ) lu ly s.P5).2 } := by
  simp only [ekfUpdate, hxh, hlx, hlu, hly, if_pos hgate, ekfSpecStep]
  simp only [g_eq_integrate]
  rfl

/-- Witness for C5 at a concrete gated state with one input and one
measurement buffered. -/
theorem c5_ekf_incremental_witness :
    stW.xh.getLast? = some xm0 ∧ stW.x.getLast? = some xm1 ∧
      xm0 0 < xm1 0 ∧ stW.u.getLast? = some zm3 ∧
      stW.y.getLast? = some zm3 ∧
      ekfUpdate p0 stW = some { stW with
        xh := stW.xh ++ [Fin.cons (xm1 0)
          (ekfSpecStep p0 (fun i => xm0 i.succ) zm3 zm3 stW.P5).1],
        P5 := (ekfSpecStep p0 (fun i => xm0 i.succ) zm3 zm3 stW.P5).2 } :=
  ⟨rfl, rfl, by norm_num [xm0, xm1], rfl, rfl,
    c5_ekf_incremental p0 stW xm0 xm1 zm3 zm3 rfl rfl
      (by norm_num [xm0, xm1]) rfl rfl⟩

/-- C9: along every `KalmanFilter` run — any interleaving of finite inputs
and measurements — `self.P` stays symmetric and positive semi-definite (in
exact real arithmetic it in fact stays diagonal with positive entries). -/
theorem c9_kf_covariance_psd (pinv : M22 → M22) (evts : List Event) (s : St)
    (hr : run pinv Variant.kf evts = some s) :
    s.P4.IsSymm ∧ s.P4.PosSemidef := by
  obtain ⟨dg, hd, hP⟩ := runFrom_ind pinv Variant.kf
    (fun st _ => ∃ dg, (∀ i, 0 < dg i) ∧ st.P4 = Matrix.diagonal dg)
    (fun st e rest st' hq hs => kf_P4_pres pinv st e st' hs hq)
    evts init s ⟨fun _ => 0.1, fun i => by norm_num, rfl⟩ hr
  rw [hP]
  exact ⟨Matrix.isSymm_diagonal dg,
    Matrix.PosSemidef.diagonal fun i => (hd i).le⟩

/-- Witness for C9 at the empty run. -/
theorem c9_kf_covariance_psd_witness : init.P4.IsSymm ∧ init.P4.PosSemidef :=
  c9_kf_covariance_psd p0 [] init rfl

/-- C3 counterexample: with two buffered input/measurement pairs, one gated
`KalmanFilter` activation applies the covariance cycle twice — the resulting
`P[2][2] = 3/10` differs from the `1/5` that exactly one predict/update cycle
from the entering covariance would produce, so the activation is not a single
cycle on the most recent pair. -/
theorem c3_counterexample :
    (run p0 Variant.kf [Event.cbu zm3, Event.cbu zm3, Event.cby zm3,
        Event.cby zm3, Event.cbx xm1, Event.cbx xm2, Event.tick]).map
      (fun s => s.P4 2 2) = some (3 / 10) ∧
      cycleP P0_kf 2 2 = 1 / 5 ∧ ((3 : ℝ) / 10 ≠ 1 / 5) := by
  have hd0 : ∀ i : Fin 4, (0 : ℝ) < (fun _ => (0.1 : ℝ)) i := fun i => by norm_num
  have hc1 : cycleP P0_kf = Matrix.diagonal (cyclePd fun _ => 0.1) :=
    cycleP_diagonal _ hd0
  have hc2 : cycleP (cycleP P0_kf) =
      Matrix.diagonal (cyclePd (cyclePd fun _ => 0.1)) := by
    rw [hc1]
    exact cycleP_diagonal _ (cyclePd_pos _ hd0)
  have hgate : (xm1 0 : ℝ) < xm2 0 := by norm_num [xm1, xm2]
  have hstep : step p0 Variant.kf
      (⟨[zm3, zm3], [xm1, xm2], [zm3, zm3], [xm1], P0_kf, P0_ekf⟩ : St)
      Event.tick = some (⟨[zm3, zm3], [xm1, xm2], [zm3, zm3],
        [xm1, (([zm3, zm3].zip [zm3, zm3]).foldl kfCycle (xm1, P0_kf)).1],
        (([zm3, zm3].zip [zm3, zm3]).foldl kfCycle (xm1, P0_kf)).2,
        P0_ekf⟩ : St) := by
    simp only [step, update, kfUpdate, List.getLast?_cons_cons,
      List.getLast?_singleton, List.head?_cons]
    rw [if_pos hgate]
    rfl
  have hrun : run p0 Variant.kf [Event.cbu zm3, Event.cbu zm3, Event.cby zm3,
      Event.cby zm3, Event.cbx xm1, Event.cbx xm2, Event.tick] =
      some (⟨[zm3, zm3], [xm1, xm2], [zm3, zm3],
        [xm1, (([zm3, zm3].zip [zm3, zm3]).foldl kfCycle (xm1, P0_kf)).1],
        (([zm3, zm3].zip [zm3, zm3]).foldl kfCycle (xm1, P0_kf)).2,
        P0_ekf⟩ : St) := by
    show runFrom p0 Variant.kf
      (⟨[zm3, zm3], [xm1, xm2], [zm3, zm3], [xm1], P0_kf, P0_ekf⟩ : St)
      [Event.tick] = _
    rw [runFrom_cons, hstep]
    rfl
  have hsnd : (([zm3, zm3].zip [zm3, zm3]).foldl kfCycle (xm1, P0_kf)).2 =
      cycleP^[2] P0_kf := foldl_kfCycle_snd _ _
  have hiter : cycleP^[2] P0_kf = cycleP (cycleP P0_kf) := rfl
  refine ⟨?_, ?_, by norm_num⟩
  · rw [hrun, Option.map_some']
    simp only []
    rw [hsnd, hiter, hc2]
    rw [Matrix.diagonal_apply_eq]
    norm_num [cyclePd]
  · rw [hc1, Matrix.diagonal_apply_eq]
    norm_num [cyclePd]

/-- C3 amended: on each gated activation the `KalmanFilter` replays one
predict/update cycle per buffered input, pairing `u[k]` with `y[k]` and
restarting the state from the full initial ground-truth sample `x[0]`, while
the covariance carries forward across ticks and accumulates one `cycleP` per
buffered input; the appended estimate carries the *last input's* timestamp
and the frozen bearing `phid`. -/
theorem c3_kf_replays_history (s : St) (lxh lx x0 : S6)
    (hxh : s.xh.getLast? = some lxh) (hlx : s.x.getLast? = some lx)
    (hx0 : s.x.head? = some x0) (hgate : lxh 0 < lx 0)
    (hlen : s.u.length ≤ s.y.length) :
    kfUpdate s = some { s with
      xh := s.xh ++ [((s.u.zip s.y).foldl kfCycle (x0, s.P4)).1],
      P4 := cycleP^[s.u.length] s.P4 } ∧
    ∀ pl ∈ (s.u.zip s.y).getLast?,
      ((s.u.zip s.y).foldl kfCycle (x0, s.P4)).1 0 = pl.1 0 ∧
      ((s.u.zip s.y).foldl kfCycle (x0, s.P4)).1 1 = phid := by
  constructor
  · simp only [kfUpdate, hxh, hlx, hx0, if_pos hgate, if_pos hlen]
    rw [foldl_kfCycle_snd, List.length_zip, min_eq_left hlen]
  · intro pl hpl
    exact foldl_kfCycle_last _ _ pl hpl

/-- Witness for C3 at a concrete gated state with empty buffers to replay. -/
theorem c3_kf_replays_history_witness :
    stW0.xh.getLast? = some xm0 ∧ stW0.x.getLast? = some xm1 ∧
      stW0.x.head? = some xm0 ∧ xm0 0 < xm1 0 ∧
      stW0.u.length ≤ stW0.y.length ∧
      kfUpdate stW0 = some { stW0 with
        xh := stW0.xh ++ [((stW0.u.zip stW0.y).foldl kfCycle (xm0, stW0.P4)).1],
        P4 := cycleP^[stW0.u.length] stW0.P4 } :=
  ⟨rfl, rfl, rfl, by norm_num [xm0, xm1], by decide,
    (c3_kf_replays_history stW0 xm0 xm1 xm0 rfl rfl rfl
      (by norm_num [xm0, xm1]) (by decide)).1⟩

/-- C4 (code bug): at the operating point `(phi, x, y, thL, thR) =
`(0, 0.2, 0.2, 0, 0)` the code's measurement Jacobian entry
`approx_C[1][1]` is `-5/3`, while the true partial derivative of the
measurement model `h`'s bearing component with respect to the state's
x-coordinate at that point is `+5/3`: the entry has the wrong sign (so does
`approx_C[1][2]`), and the difference `10/3` is far beyond the `1e-4`
tolerance.  (`approx_A` does match the derivative of `g`; the claim fails on
`approx_C`.) -/
theorem c4_approxC_wrong_sign :
    approx_C ![0, 1/5, 1/5, 0, 0] 1 1 = -(5 / 3) ∧
      HasDerivAt (fun t : ℝ => h ![0, t, 1/5, 0, 0] 1) (5 / 3) (1/5 : ℝ) ∧
      |approx_C ![0, 1/5, 1/5, 0, 0] 1 1 - 5 / 3| > 1 / 10000 := by
  have hval : approx_C ![0, 1/5, 1/5, 0, 0] 1 1 = -(5 / 3) := by
    simp [approx_C, landmark]
    norm_num
  refine ⟨hval, ?_, ?_⟩
  · rw [h_bearing_slice]
    have hinner : HasDerivAt (fun t : ℝ => (1/2 - t) / (3/10))
        ((0 - 1) / (3/10)) (1/5 : ℝ) :=
      ((hasDerivAt_const (1/5 : ℝ) (1/2)).sub
        (hasDerivAt_id (1/5 : ℝ))).div_const (3/10)
    have hfin := hinner.arctan.neg
    convert hfin using 1
    norm_num
  · rw [hval]
    norm_num
    rw [abs_of_nonneg (by norm_num : (0:ℝ) ≤ 10/3)]
    norm_num

end TurtlebotEst
